import Mathlib

/-
  Verification of the OQ-SRTK site-response core against its specification.

  The Python sources are embedded shallowly:
  * floating-point scalars are modelled by exact rationals,
  * numpy arrays by lists,
  * complex numpy arrays by lists of a Gaussian-rational complex type,
  * the external library routines (numpy trigonometry, exponential,
    square root, and the scipy bounded minimizer) by explicit function
    parameters, constrained only by hypotheses that hold of the real
    library functions at the points where the claims use them.
-/

namespace Average

/-
  Embedding of src/openquake/srtk/soil/average.py.

  The loop of depth_weighted_average walks zip(thickness[:-1],
  soil_param[:-1]) accumulating the consumed depth, with an early break
  when the running layer straddles the target depth.  dwaGo returns the
  accumulated mean together with the final value of total_depth, which
  the caller compares with the finite-thickness sum to decide whether
  the half-space term applies.
-/
def dwaGo (depth : ℚ) : List (ℚ × ℚ) → ℚ → ℚ × ℚ
  | [], total => (0, total)
  | (tk, sp) :: rest, total =>
    if tk + total < depth then
      let r := dwaGo depth rest (total + tk)
      (tk * sp / depth + r.1, r.2)
    else
      ((depth - total) * sp / depth, total)

/-
  depth_weighted_average(thickness, soil_param, depth).  An empty
  soil_param would raise an IndexError at soil_param[-1] in Python;
  the embedding uses getLastD 0 there, and no claim touches that case.
-/
def depth_weighted_average (thickness soil_param : List ℚ) (depth : ℚ) : ℚ :=
  let r := dwaGo depth (List.zip thickness.dropLast soil_param.dropLast) 0
  if r.2 = thickness.dropLast.sum then
    r.1 + (depth - r.2) * (soil_param.getLastD 0) / depth
  else
    r.1

/- traveltime_average_velocity(thickness, s_velocity, depth). -/
def traveltime_average_velocity (thickness s_velocity : List ℚ) (depth : ℚ) : ℚ :=
  let slowness := s_velocity.map (fun v => 1 / v)
  let mean_slowness := depth_weighted_average thickness slowness depth
  1 / mean_slowness

/-
  compute_site_kappa(thickness, s_velocity, s_quality, depth=[]).
  The default depth argument is the empty list and the code tests
  truthiness, so both an absent depth and a supplied depth of 0 fall
  back to sum(thickness).  none models the empty-list default.
-/
def compute_site_kappa (thickness s_velocity s_quality : List ℚ)
    (depth : Option ℚ) : ℚ :=
  let d := match depth with
    | none => thickness.sum
    | some x => if x = 0 then thickness.sum else x
  let layer_kappa := List.zipWith (fun v q => d / (v * q)) s_velocity s_quality
  depth_weighted_average thickness layer_kappa d

/- The misfit objective _qwl_fit_func(search_depth, thickness, slowness, frequency). -/
def qwl_fit_func (thickness slowness : List ℚ) (frequency : ℚ)
    (search_depth : ℚ) : ℚ :=
  let qwl_slowness := depth_weighted_average thickness slowness search_depth
  |search_depth - 1 / (4 * frequency * qwl_slowness)|

/- numpy max over a nonempty array; numpy raises on an empty one, unreached here. -/
def listMax : List ℚ → ℚ
  | [] => 0
  | x :: xs => xs.foldl max x

/-
  quarter_wavelength_velocity(thickness, s_velocity, frequency).
  The scipy bounded minimizer fminbound is external; it is passed in as
  the parameter fminbound taking the objective and the search bounds.
  The function returns the pair of per-frequency arrays
  (qwl_depth, qwl_velocity) exactly as the source does.
-/
def quarter_wavelength_velocity
    (fminbound : (ℚ → ℚ) → ℚ → ℚ → ℚ)
    (thickness s_velocity frequency : List ℚ) : List ℚ × List ℚ :=
  let slowness := s_velocity.map (fun v => 1 / v)
  let pairs := frequency.map (fun f =>
    let ubnd := listMax (slowness.map (fun s => 1 / (4 * f * s)))
    let zf := fminbound (qwl_fit_func thickness slowness f) 0 ubnd
    (zf, 1 / depth_weighted_average thickness slowness zf))
  (pairs.map Prod.fst, pairs.map Prod.snd)

end Average

namespace Proxies

/-
  Embedding of src/oqsrtk/soilprofile/proxies.py.  The module carries
  its own copy of the depth-averaging kernel (parameter named
  soil_prop, accumulator named mean_value); it is embedded separately
  so that the two copies can be compared.
-/
def dwaGo (depth : ℚ) : List (ℚ × ℚ) → ℚ → ℚ × ℚ
  | [], total => (0, total)
  | (tk, sp) :: rest, total =>
    if tk + total < depth then
      let r := dwaGo depth rest (total + tk)
      (tk * sp / depth + r.1, r.2)
    else
      ((depth - total) * sp / depth, total)

def depth_weighted_average (thickness soil_prop : List ℚ) (depth : ℚ) : ℚ :=
  let r := dwaGo depth (List.zip thickness.dropLast soil_prop.dropLast) 0
  if r.2 = thickness.dropLast.sum then
    r.1 + (depth - r.2) * (soil_prop.getLastD 0) / depth
  else
    r.1

end Proxies

/-
  Spec-side readings of the value at an interface depth, used to state
  the continuity property of claim C3.  Both follow the wording of the
  specification: the first treats the interface as the end of the layer
  above (the first k layers contribute fully and nothing below does),
  the second as zero penetration into the layer below (an additional
  zero-weight term for layer k).
-/
def interfaceValueAsEndAbove (th sp : List ℚ) (k : ℕ) : ℚ :=
  (List.zipWith (· * ·) (th.take k) (sp.take k)).sum / (th.take k).sum

def interfaceValueAsZeroBelow (th sp : List ℚ) (k : ℕ) : ℚ :=
  interfaceValueAsEndAbove th sp k + 0 * (sp.getD k 0) / (th.take k).sum

/-
  Real-valued external library functions used by impedance_amplification,
  passed as explicit parameters: numpy sqrt, sin, cos, arcsin and the
  numpy pi constant (a rational in float64 arithmetic).
-/
structure ROps where
  sqrtF : ℚ → ℚ
  sinF : ℚ → ℚ
  cosF : ℚ → ℚ
  arcsinF : ℚ → ℚ
  piQ : ℚ

/- Truthiness of np.sum over an absent ([]) or scalar reference argument. -/
def npSum0 (x : Option ℚ) : ℚ := x.getD 0

/- The fallback reference value: last element of the site array if it has more than one entry, the whole (scalar) value otherwise. -/
def refDefault (top : List ℚ) : ℚ :=
  if 1 < top.length then top.getLastD 0 else top.headD 0

/-
  impedance_amplification(top_vs, top_dn, ref_vs=[], ref_dn=[], inc_ang=0).
  Scalars are modelled as one-element lists; the reference arguments as
  Option, none being the empty-list default.  The source guards the
  defaulting with `if not np.sum(ref_vs)`, so any supplied reference
  whose sum is zero also triggers the fallback.
-/
def impedance_amplification (ops : ROps) (top_vs top_dn : List ℚ)
    (ref_vs ref_dn : Option ℚ) (inc_ang : ℚ) : List ℚ :=
  let rv := if npSum0 ref_vs = 0 then refDefault top_vs else ref_vs.getD 0
  let rd := if npSum0 ref_dn = 0 then refDefault top_dn else ref_dn.getD 0
  let imp := List.zipWith (fun v d => ops.sqrtF ((rd * rv) / (d * v))) top_vs top_dn
  if 0 < inc_ang then
    let ia := inc_ang * (ops.piQ / 180)
    List.zipWith (fun b v =>
      b * ops.sqrtF (ops.cosF ia / ops.cosF (ops.arcsinF ((v / rv) * ops.sinF ia))))
      imp top_vs
  else
    imp

/-
  Complex numbers with rational components, modelling numpy complex128
  values exactly (every float is a rational).
-/
@[ext]
structure CQ where
  re : ℚ
  im : ℚ
deriving DecidableEq

namespace CQ

def ofQ (q : ℚ) : CQ := ⟨q, 0⟩

def I : CQ := ⟨0, 1⟩

instance : Add CQ := ⟨fun a b => ⟨a.re + b.re, a.im + b.im⟩⟩
instance : Neg CQ := ⟨fun a => ⟨-a.re, -a.im⟩⟩
instance : Sub CQ := ⟨fun a b => ⟨a.re - b.re, a.im - b.im⟩⟩
instance : Mul CQ := ⟨fun a b => ⟨a.re * b.re - a.im * b.im, a.re * b.im + a.im * b.re⟩⟩

def normSq (z : CQ) : ℚ := z.re * z.re + z.im * z.im

instance : Inv CQ := ⟨fun z => ⟨z.re / z.normSq, -z.im / z.normSq⟩⟩
instance : Div CQ := ⟨fun a b => a * b⁻¹⟩
instance (n : ℕ) : OfNat CQ n := ⟨⟨(n : ℚ), 0⟩⟩

/-
  numpy orders complex values lexicographically (real part first, then
  imaginary part); this is the ordering used by the depth comparisons in
  the transfer-function depth lookup.
-/
def cle (a b : CQ) : Bool :=
  decide (a.re < b.re) || (decide (a.re = b.re) && decide (a.im ≤ b.im))

end CQ

/-
  Model of np.linalg.solve over exact arithmetic: Gaussian elimination
  on the augmented matrix, returning none exactly when no nonzero pivot
  can be found in some column (the singular case, in which numpy raises
  LinAlgError regardless of the right-hand side).
-/
def dotCQ (xs ys : List CQ) : CQ :=
  (List.zipWith (· * ·) xs ys).foldl (· + ·) 0

def pivotSplit : List (List CQ) → Option (List CQ × List (List CQ))
  | [] => none
  | r :: rs =>
    if r.headD 0 ≠ 0 then some (r, rs)
    else
      match pivotSplit rs with
      | some (p, rest) => some (p, r :: rest)
      | none => none

def gaussAux : List (List CQ) → List (List CQ) → Option (List CQ)
  | [], _ => some []
  | _ :: fuel, rows =>
    match pivotSplit rows with
    | none => none
    | some (p, rest) =>
      let pn := p.map (fun x => x / p.headD 0)
      let rest2 := rest.map (fun r =>
        (List.zipWith (fun x y => x - r.headD 0 * y) r pn).drop 1)
      match gaussAux fuel rest2 with
      | none => none
      | some xs =>
        let t := pn.drop 1
        some ((t.getLastD 0 - dotCQ t.dropLast xs) :: xs)

def gaussSolve (a : List (List CQ)) (b : List CQ) : Option (List CQ) :=
  gaussAux a (List.zipWith (fun row bi => row ++ [bi]) a b)

/-
  Complex-valued external library functions used by sh_transfer_function
  (numpy sin, cos, arcsin, exp, absolute value) and the numpy pi
  constant, passed as explicit parameters.
-/
structure COps where
  sinC : CQ → CQ
  cosC : CQ → CQ
  arcsinC : CQ → CQ
  expC : CQ → CQ
  absC : CQ → ℚ
  piQ : ℚ

/-
  The depth argument of sh_transfer_function: either a Python scalar
  (where a negative value selects all interface depths) or an array,
  which is used as given.
-/
inductive DepthSpec where
  | scalar (d : ℚ)
  | array (ds : List ℚ)

namespace Amplification

/- interface_depth(hl): partial sums of the thicknesses, one per layer. -/
def interface_depth (hl : List CQ) : List CQ :=
  (List.range hl.length).map (fun i => ((hl.take i).foldl (· + ·) 0))

/- Attenuation via complex velocities: vs = vs * (2 q i) / (2 q i - 1) when qs is given. -/
def dampedVs (vs : List CQ) (qs : Option (List ℚ)) : List CQ :=
  match qs with
  | none => vs
  | some q =>
      List.zipWith (fun v qi => v * ((2 * CQ.ofQ qi * CQ.I) / (2 * CQ.ofQ qi * CQ.I - 1)))
        vs q

/-
  The small linear system for the propagation angles: row 0 fixes the
  half-space angle to the incidence angle, row nl+1 encodes continuity
  of sin(theta)/v across interface nl.
-/
def iMat (vs : List CQ) : List (List CQ) :=
  let lnum := vs.length
  (List.range lnum).map (fun r =>
    (List.range lnum).map (fun c =>
      if r = 0 then (if c = lnum - 1 then 1 else 0)
      else if c = r - 1 then 1 / vs.getD (r - 1) 0
      else if c = r then -(1 / vs.getD r 0)
      else 0))

def iVec (ops : COps) (inc_ang : ℚ) (lnum : ℕ) : List CQ :=
  (List.range lnum).map (fun i => if i = 0 then ops.sinC (CQ.ofQ inc_ang) else 0)

/- iS = arcsin(solve(iM, iD)); a singular iM aborts the whole call (uncaught). -/
def propagationSines (ops : COps) (vs : List CQ) (inc_ang : ℚ) : Option (List CQ) :=
  (gaussSolve (iMat vs) (iVec ops inc_ang vs.length)).map (fun iA => iA.map ops.arcsinC)

/-
  The per-frequency Knopoff layer matrix.  Row 0 is the free surface,
  row 2 nl + 1 the displacement continuity and row 2 nl + 2 the stress
  continuity at interface nl, and the last row fixes the incident
  amplitude.  The source zeroes and refills the same array each
  iteration, which amounts to assembling this matrix afresh.
-/
def layMat (ops : COps) (angfF : ℚ) (hl mu ns : List CQ) : List (List CQ) :=
  let n := 2 * hl.length
  (List.range n).map (fun r =>
    (List.range n).map (fun c =>
      if r = 0 then (if c = 0 then 1 else if c = 1 then -1 else 0)
      else if r = n - 1 then (if c = n - 1 then 1 else 0)
      else
        let nl := (r - 1) / 2
        let eD := ops.expC (CQ.I * CQ.ofQ angfF * ns.getD nl 0 * hl.getD nl 0)
        let eU := ops.expC ((-CQ.I) * CQ.ofQ angfF * ns.getD nl 0 * hl.getD nl 0)
        if r % 2 = 1 then
          (if c = 2 * nl then eD
           else if c = 2 * nl + 1 then eU
           else if c = 2 * nl + 2 then -1
           else if c = 2 * nl + 3 then -1
           else 0)
        else
          (if c = 2 * nl then mu.getD nl 0 * ns.getD nl 0 * eD
           else if c = 2 * nl + 1 then -(mu.getD nl 0 * ns.getD nl 0) * eU
           else if c = 2 * nl + 2 then -(mu.getD (nl + 1) 0 * ns.getD (nl + 1) 0)
           else if c = 2 * nl + 3 then mu.getD (nl + 1) 0 * ns.getD (nl + 1) 0
           else 0)))

/- The known term: unit incident amplitude in the half-space. -/
def inpVec (n : ℕ) : List CQ :=
  (List.range n).map (fun i => if i = n - 1 then 1 else 0)

/-
  Locate the layer containing a calculation depth, following the
  ordered search over interface depths of the source (first bound at or
  above the depth, minus one), with the numpy lexicographic comparison
  on complex values.
-/
def locateLayer (hl bounds : List CQ) (dz : CQ) : ℕ × CQ :=
  if CQ.cle dz (hl.headD 0) then (0, dz)
  else if !CQ.cle dz (bounds.getLastD 0) then (hl.length - 1, dz - bounds.getLastD 0)
  else
    let j := bounds.findIdx (fun b => CQ.cle dz b)
    (j - 1, dz - bounds.getD (j - 1) 0)

/- Displacement magnitude at one depth: up-going plus down-going wave with their phase factors. -/
def dispAt (ops : COps) (angfF : ℚ) (hl bounds ns : List CQ) (amp : List CQ)
    (dz : CQ) : ℚ :=
  let p := locateLayer hl bounds dz
  let eD := ops.expC (CQ.I * CQ.ofQ angfF * ns.getD p.1 0 * p.2)
  let eU := ops.expC ((-CQ.I) * CQ.ofQ angfF * ns.getD p.1 0 * p.2)
  ops.absC (amp.getD (2 * p.1) 0 * eD + amp.getD (2 * p.1 + 1) 0 * eU)

/-
  One frequency column of the displacement matrix.  A singular layer
  matrix makes the amplitude vector all-NaN, which propagates to every
  depth entry of the column; none models NaN.
-/
def shColumn (ops : COps) (hlC mu ns bounds : List CQ) (depths : List CQ)
    (f : ℚ) : List (Option ℚ) :=
  match gaussSolve (layMat ops (2 * ops.piQ * f) hlC mu ns) (inpVec (2 * hlC.length)) with
  | some amp => depths.map (fun dz => some (dispAt ops (2 * ops.piQ * f) hlC bounds ns amp dz))
  | none => depths.map (fun _ => none)

/-
  The frequency loop.  The Python variable AmpVec persists between
  iterations (rebound on a successful solve, overwritten with NaN in
  the except branch); the carried state models it, and is never read by
  a later iteration, exactly as in the source.
-/
def shLoop (ops : COps) (hlC mu ns bounds : List CQ) (depths : List CQ) :
    List ℚ → Option (List CQ) → List (List (Option ℚ))
  | [], _ => []
  | f :: rest, _ =>
    let res := gaussSolve (layMat ops (2 * ops.piQ * f) hlC mu ns) (inpVec (2 * hlC.length))
    let col := match res with
      | some amp => depths.map (fun dz => some (dispAt ops (2 * ops.piQ * f) hlC bounds ns amp dz))
      | none => depths.map (fun _ => none)
    col :: shLoop ops hlC mu ns bounds depths rest res

/- Pre-loop work: casts, damping, propagation angles, slowness, modulus, interfaces. -/
def shPrep (ops : COps) (hl vs dn : List ℚ) (qs : Option (List ℚ)) (inc_ang : ℚ) :
    Option (List CQ × List CQ × List CQ × List CQ) :=
  let hlC := hl.map CQ.ofQ
  let vsC := dampedVs (vs.map CQ.ofQ) qs
  let dnC := dn.map CQ.ofQ
  match propagationSines ops vsC inc_ang with
  | none => none
  | some iS =>
      some (hlC,
            List.zipWith (fun d v => d * (v * v)) dnC vsC,
            List.zipWith (fun s v => ops.cosC s / v) iS vsC,
            interface_depth hlC)

def shDepths (bounds : List CQ) (d : DepthSpec) : List CQ :=
  match d with
  | .scalar x => if x < 0 then bounds else [CQ.ofQ x]
  | .array xs => xs.map CQ.ofQ

/-
  sh_transfer_function(freq, hl, vs, dn, qs=None, inc_ang=0, depth=0).
  Returns the displacement matrix as a per-frequency list of per-depth
  columns; none models the uncaught LinAlgError of a singular
  propagation-angle system.
-/
def sh_transfer_function (ops : COps) (freq : List ℚ) (hl vs dn : List ℚ)
    (qs : Option (List ℚ)) (inc_ang : ℚ) (depth : DepthSpec) :
    Option (List (List (Option ℚ))) :=
  match shPrep ops hl vs dn qs inc_ang with
  | none => none
  | some (hlC, mu, ns, bounds) =>
      some (shLoop ops hlC mu ns bounds (shDepths bounds depth) freq
              (some (List.replicate (2 * hl.length) 0)))

end Amplification

/-
  A small heap model, used to state that the core routines never write
  into the arrays owned by the caller.  Python numpy arrays are cells
  addressed by natural numbers; np.array(...) and numpy arithmetic
  allocate fresh cells, while slice assignment and in-place operators
  write to an existing cell.  Cell entries are real scalars, complex
  scalars (none modelling NaN, as written by AmpVec slice assignment)
  or real-or-NaN scalars (displacement matrix entries).
-/
inductive Val where
  | r (q : ℚ)
  | z (w : Option CQ)
  | m (x : Option ℚ)
deriving DecidableEq

structure Mem where
  cells : List (List Val)

namespace Mem

def read (s : Mem) (a : ℕ) : List Val := s.cells.getD a []

def alloc (s : Mem) (c : List Val) : Mem × ℕ :=
  (⟨s.cells ++ [c]⟩, s.cells.length)

def write (s : Mem) (a : ℕ) (c : List Val) : Mem := ⟨s.cells.set a c⟩

/-
  All cells that existed in the first memory still hold the same
  contents in the second: the caller-visible frame of a computation.
-/
def Preserves (s0 s : Mem) : Prop :=
  s0.cells.length ≤ s.cells.length ∧
  ∀ a, a < s0.cells.length → s.read a = s0.read a

end Mem

/- Decode a caller cell of real scalars into the list the numeric embedding consumes. -/
def toQList (c : List Val) : List ℚ :=
  c.map (fun v => match v with | .r q => q | _ => 0)

def ofQList (l : List ℚ) : List Val := l.map Val.r

def ofCList (l : List CQ) : List Val := l.map (fun z => Val.z (some z))

def ofMList (l : List (Option ℚ)) : List Val := l.map Val.m

namespace Store

/- depth_weighted_average reads its arrays and performs no array writes. -/
def depth_weighted_average_st (s : Mem) (aTh aSp : ℕ) (depth : ℚ) : Mem × ℚ :=
  (s, Average.depth_weighted_average (toQList (s.read aTh)) (toQList (s.read aSp)) depth)

def traveltime_average_velocity_st (s : Mem) (aTh aVs : ℕ) (depth : ℚ) : Mem × ℚ :=
  (s, Average.traveltime_average_velocity (toQList (s.read aTh)) (toQList (s.read aVs)) depth)

def compute_site_kappa_st (s : Mem) (aTh aVs aQs : ℕ) (depth : Option ℚ) : Mem × ℚ :=
  (s, Average.compute_site_kappa (toQList (s.read aTh)) (toQList (s.read aVs))
        (toQList (s.read aQs)) depth)

def impedance_amplification_st (ops : ROps) (s : Mem) (aTvs aTdn : ℕ)
    (ref_vs ref_dn : Option ℚ) (inc_ang : ℚ) : Mem × List ℚ :=
  (s, impedance_amplification ops (toQList (s.read aTvs)) (toQList (s.read aTdn))
        ref_vs ref_dn inc_ang)

/-
  quarter_wavelength_velocity allocates the two result arrays
  (np.zeros) and writes one entry of each per frequency; the velocity
  entry reads back the depth entry just stored, as the source does.
-/
def quarter_wavelength_velocity_st (fminbound : (ℚ → ℚ) → ℚ → ℚ → ℚ)
    (s0 : Mem) (aTh aVs aFr : ℕ) : Mem × ℕ × ℕ :=
  let th := toQList (s0.read aTh)
  let vs := toQList (s0.read aVs)
  let fr := toQList (s0.read aFr)
  let slowness := vs.map (fun v => 1 / v)
  let p1 := s0.alloc (ofQList (List.replicate fr.length 0))
  let p2 := p1.1.alloc (ofQList (List.replicate fr.length 0))
  let sFin := (List.range fr.length).foldl (fun s nf =>
    let f := fr.getD nf 0
    let ubnd := Average.listMax (slowness.map (fun sl => 1 / (4 * f * sl)))
    let zf := fminbound (Average.qwl_fit_func th slowness f) 0 ubnd
    let s := s.write p1.2 ((s.read p1.2).set nf (Val.r zf))
    let zStored := (toQList (s.read p1.2)).getD nf 0
    s.write p2.2 ((s.read p2.2).set nf
      (Val.r (1 / Average.depth_weighted_average th slowness zStored)))) p2.1
  (sFin, p1.2, p2.2)

/-
  sh_transfer_function in the heap model.  It allocates complex copies
  of the caller arrays (np.array with a complex dtype), applies the
  damping factor in place to the copy of vs, allocates the working
  arrays, and inside the frequency loop writes only to the layer
  matrix, the amplitude vector (reallocated by a successful solve,
  NaN-filled in place on failure) and the displacement matrix.  The
  returned address is the displacement matrix, none when the
  propagation-angle solve raised.
-/
def sh_transfer_function_st (ops : COps) (s0 : Mem)
    (aFreq aHl aVs aDn aQs : ℕ) (hasQs : Bool) (inc_ang : ℚ)
    (depth : DepthSpec) : Mem × Option ℕ :=
  let freq := toQList (s0.read aFreq)
  let hl := toQList (s0.read aHl)
  let vs := toQList (s0.read aVs)
  let dn := toQList (s0.read aDn)
  let qs : Option (List ℚ) := if hasQs then some (toQList (s0.read aQs)) else none
  let pHl := s0.alloc (ofCList (hl.map CQ.ofQ))
  let pVs := pHl.1.alloc (ofCList (vs.map CQ.ofQ))
  let pDn := pVs.1.alloc (ofCList (dn.map CQ.ofQ))
  let vsC := Amplification.dampedVs (vs.map CQ.ofQ) qs
  let s3 := match qs with
    | some _ => pDn.1.write pVs.2 (ofCList vsC)
    | none => pDn.1
  let hlC := hl.map CQ.ofQ
  let bounds := Amplification.interface_depth hlC
  let pBounds := s3.alloc (ofCList bounds)
  let depths := Amplification.shDepths bounds depth
  match Amplification.propagationSines ops vsC inc_ang with
  | none => (pBounds.1, none)
  | some iS =>
    let mu := List.zipWith (fun d v => d * (v * v)) (dn.map CQ.ofQ) vsC
    let ns := List.zipWith (fun sn v => ops.cosC sn / v) iS vsC
    let pAmp := pBounds.1.alloc (ofCList (List.replicate (2 * hl.length) 0))
    let pLay := pAmp.1.alloc (ofCList (List.replicate (2 * hl.length * (2 * hl.length)) 0))
    let pInp := pLay.1.alloc (ofCList (Amplification.inpVec (2 * hl.length)))
    let pDis := pInp.1.alloc (ofMList (List.replicate (depths.length * freq.length) (some 0)))
    let final := (List.range freq.length).foldl (fun (st : Mem × ℕ) nf =>
      let s := st.1
      let aAmp := st.2
      let f := freq.getD nf 0
      let angfF := 2 * ops.piQ * f
      let M := Amplification.layMat ops angfF hlC mu ns
      let s := s.write pLay.2 (ofCList M.flatten)
      match gaussSolve M (Amplification.inpVec (2 * hl.length)) with
      | some amp =>
        let p := s.alloc (ofCList amp)
        let s2 := (List.range depths.length).foldl (fun s nz =>
          let dz := depths.getD nz 0
          let v := Amplification.dispAt ops angfF hlC bounds ns amp dz
          s.write pDis.2 ((s.read pDis.2).set (nz * freq.length + nf)
            (Val.m (some v)))) p.1
        (s2, p.2)
      | none =>
        let s := s.write aAmp (List.replicate (2 * hl.length) (Val.z none))
        let s2 := (List.range depths.length).foldl (fun s nz =>
          s.write pDis.2 ((s.read pDis.2).set (nz * freq.length + nf)
            (Val.m none))) s
        (s2, aAmp)) (pDis.1, pAmp.2)
    (final.1, some pDis.2)

end Store

/-
  Concrete instantiations of the external-library parameters used by
  the witness and counterexample theorems.  They satisfy the point
  hypotheses of the claim theorems at the inputs where those are
  applied.
-/
def ops0 : ROps :=
  { sqrtF := fun x => x, sinF := fun x => x, cosF := fun x => x,
    arcsinF := fun x => x, piQ := 0 }

def cops0 : COps :=
  { sinC := fun _ => 0, cosC := fun _ => 0, arcsinC := fun _ => 0,
    expC := fun _ => 0, absC := fun _ => 0, piQ := 0 }

def cops1 : COps :=
  { sinC := fun _ => 0, cosC := fun _ => 1, arcsinC := fun _ => 0,
    expC := fun _ => 1, absC := fun z => z.re, piQ := 0 }

/- The prepared data of the two-layer singular witness profile. -/
def hlC0 : List CQ := [⟨5, 0⟩, ⟨0, 0⟩]

def mu0 : List CQ := [⟨1, 0⟩, ⟨1, 0⟩]

def ns0 : List CQ := [⟨0, 0⟩, ⟨0, 0⟩]

def bounds0 : List CQ := [⟨0, 0⟩, ⟨5, 0⟩]

/- Helper lemmas about lists. -/

theorem take_zip_eq {α β : Type} :
    ∀ (n : ℕ) (l : List α) (l2 : List β),
      (l.zip l2).take n = (l.take n).zip (l2.take n)
  | 0, _, _ => by simp
  | _ + 1, [], _ => by simp
  | _ + 1, _ :: _, [] => by simp
  | n + 1, a :: l, b :: l2 => by
      simp [List.zip_cons_cons, take_zip_eq n l l2]

theorem sum_map_div_q (l : List ℚ) (d : ℚ) :
    (l.map (fun x => x / d)).sum = l.sum / d := by
  induction l with
  | nil => simp
  | cons a t ih => simp [ih, add_div]

theorem sum_take_lt_sum (l : List ℚ) (i : ℕ) (hi : i < l.length)
    (hp : ∀ x ∈ l, 0 < x) : (l.take i).sum < l.sum := by
  conv_rhs => rw [← List.take_append_drop i l]
  rw [List.sum_append]
  have hne : l.drop i ≠ [] := by
    simp [List.drop_eq_nil_iff]
    omega
  have hpos : 0 < (l.drop i).sum :=
    List.sum_pos _ (fun x hx => hp x (List.drop_subset _ _ hx)) hne
  linarith

theorem sum_eq_dropLast_add_getLastD :
    ∀ (l : List ℚ), l.sum = l.dropLast.sum + l.getLastD 0
  | [] => by simp
  | [a] => by simp
  | a :: b :: t => by
      have ih := sum_eq_dropLast_add_getLastD (b :: t)
      simp only [List.sum_cons, List.dropLast_cons₂, List.getLastD_cons] at *
      rw [ih]
      ring

theorem getLastD_zipWith (f : ℚ → ℚ → ℚ) :
    ∀ (a b : List ℚ) (d dx dy : ℚ), a.length = b.length → a ≠ [] →
      (List.zipWith f a b).getLastD d = f (a.getLastD dx) (b.getLastD dy)
  | [], _, _, _, _, _, h => absurd rfl h
  | _ :: _, [], _, _, _, hlen, _ => by simp at hlen
  | [x], y :: ys, d, dx, dy, hlen, _ => by
      cases ys with
      | nil => simp
      | cons y2 t => simp at hlen
  | x :: x2 :: xs, y :: ys, d, dx, dy, hlen, _ => by
      match ys, hlen with
      | y2 :: ys, hlen =>
        have ih := getLastD_zipWith f (x2 :: xs) (y2 :: ys) (f x y) x y
          (by simpa using hlen) (by simp)
        rw [List.zipWith_cons_cons, List.getLastD_cons d, List.getLastD_cons dx,
          List.getLastD_cons dy]
        exact ih

theorem zip_map_mul :
    ∀ (a b : List ℚ), (a.zip b).map (fun p => p.1 * p.2) = List.zipWith (· * ·) a b
  | [], _ => by simp
  | _ :: _, [] => by simp
  | x :: xs, y :: ys => by simp [zip_map_mul xs ys]

theorem take_dropLast_eq (l : List ℚ) (m : ℕ) (hm : m ≤ l.length - 1) :
    l.dropLast.take m = l.take m := by
  rw [List.dropLast_eq_take, List.take_take]
  congr 1
  exact min_eq_left hm

/-
  The main loop invariant of the depth-averaging kernel: when the
  target depth is exactly the running total plus the first k pair
  thicknesses, the loop breaks inside pair k - 1, having consumed the
  first k property contributions in full and accumulated the first
  k - 1 thicknesses.
-/
theorem dwaGo_interface :
    ∀ (pairs : List (ℚ × ℚ)) (k : ℕ) (total depth : ℚ),
      1 ≤ k → k ≤ pairs.length →
      (∀ p ∈ pairs, 0 < p.1) →
      depth = total + ((pairs.take k).map Prod.fst).sum →
      Average.dwaGo depth pairs total
        = (((pairs.take k).map (fun p => p.1 * p.2)).sum / depth,
           total + ((pairs.take (k - 1)).map Prod.fst).sum)
  | [], k, total, depth, h1, h2, _, _ => by
      simp at h2
      omega
  | (tk, sp) :: tl, 1, total, depth, _, _, _, hdep => by
      simp at hdep
      have hlt : ¬ (tk + total < depth) := by
        rw [hdep]
        simp [add_comm]
      simp only [Average.dwaGo, if_neg hlt]
      rw [Prod.mk.injEq]
      refine ⟨?_, by simp⟩
      subst hdep
      simp
  | (tk, sp) :: tl, j + 2, total, depth, _, h2, hpos, hdep => by
      simp only [List.length_cons] at h2
      simp only [List.take_succ_cons, List.map_cons, List.sum_cons] at hdep
      have htl : j + 1 ≤ tl.length := by omega
      have htlne : tl ≠ [] := by
        intro h
        rw [h] at htl
        simp at htl
      have htake : tl.take (j + 1) ≠ [] := by
        simp only [ne_eq, List.take_eq_nil_iff, not_or]
        exact ⟨by omega, htlne⟩
      have hsum : 0 < ((tl.take (j + 1)).map Prod.fst).sum := by
        apply List.sum_pos
        · intro x hx
          obtain ⟨p, hp, hpx⟩ := List.mem_map.mp hx
          have := hpos p (List.mem_cons_of_mem _ (List.take_subset _ _ hp))
          exact hpx ▸ this
        · intro h
          exact htake (by simpa using h)
      have hlt : tk + total < depth := by
        rw [hdep]
        linarith
      have ih := dwaGo_interface tl (j + 1) (total + tk) depth (by omega) htl
        (fun p hp => hpos p (List.mem_cons_of_mem _ hp))
        (by rw [hdep]; ring)
      have e2 : j + 1 - 1 = j := by omega
      rw [e2] at ih
      simp only [Average.dwaGo, if_pos hlt, ih]
      rw [Prod.mk.injEq]
      have e1 : j + 2 - 1 = j + 1 := by omega
      rw [e1]
      constructor
      · simp only [List.take_succ_cons, List.map_cons, List.sum_cons]
        ring
      · simp only [List.take_succ_cons, List.map_cons, List.sum_cons]
        ring

/-
  At an interface depth (the sum of the first k thicknesses) the kernel
  returns exactly the k full layer contributions: the layer below the
  interface contributes nothing.
-/
theorem dwa_at_interface (th sp : List ℚ) (k : ℕ)
    (hlen : th.length = sp.length) (h1 : 1 ≤ k) (h2 : k + 1 ≤ th.length)
    (hpos : ∀ x ∈ th.dropLast, 0 < x) :
    Average.depth_weighted_average th sp ((th.take k).sum)
      = interfaceValueAsEndAbove th sp k := by
  have hL : th.dropLast.length = th.length - 1 := List.length_dropLast th
  have hLs : sp.dropLast.length = th.length - 1 := by
    rw [List.length_dropLast, hlen]
  have hplen : (th.dropLast.zip sp.dropLast).length = th.length - 1 := by
    rw [List.length_zip, hL, hLs, min_self]
  have htk : ∀ m, m ≤ th.length - 1 →
      (((th.dropLast.zip sp.dropLast).take m).map Prod.fst) = th.take m := by
    intro m hm
    rw [take_zip_eq, List.map_fst_zip, take_dropLast_eq th m hm]
    rw [List.length_take, List.length_take, hL, hLs]
  have hposp : ∀ p ∈ th.dropLast.zip sp.dropLast, 0 < p.1 := by
    intro p hp
    exact hpos p.1 (List.of_mem_zip hp).1
  have hrun := dwaGo_interface (th.dropLast.zip sp.dropLast) k 0 ((th.take k).sum)
    h1 (by omega) hposp (by rw [htk k (by omega)]; ring)
  have hc : (0 : ℚ) + (((th.dropLast.zip sp.dropLast).take (k - 1)).map Prod.fst).sum
      ≠ th.dropLast.sum := by
    rw [htk (k - 1) (by omega), zero_add]
    have hlt : (th.dropLast.take (k - 1)).sum < th.dropLast.sum := by
      apply sum_take_lt_sum
      · omega
      · exact hpos
    rw [take_dropLast_eq th (k - 1) (by omega)] at hlt
    exact ne_of_lt hlt
  simp only [Average.depth_weighted_average, hrun, hc, if_false, if_neg hc]
  rw [take_zip_eq, zip_map_mul, take_dropLast_eq th k (by omega),
    take_dropLast_eq sp k (by omega)]
  rfl

theorem dwaGo_average_eq_proxies :
    ∀ (d : ℚ) (pairs : List (ℚ × ℚ)) (t : ℚ),
      Average.dwaGo d pairs t = Proxies.dwaGo d pairs t
  | _, [], _ => rfl
  | d, (tk, sp) :: tl, t => by
      simp only [Average.dwaGo, Proxies.dwaGo, dwaGo_average_eq_proxies d tl (t + tk)]

/--
Claim C3: for thicknesses [10, 20, 0] and property values [5, 10, 50],
depth_weighted_average returns exactly 7.5 at depth 20 and approximately
8.3333 (within 0.001) at depth 30; and for every profile, the value at
an interface depth is the same whether the interface is read as the end
of the layer above or as zero penetration into the layer below.
-/
theorem depth_average_interface_continuity :
    Average.depth_weighted_average [10, 20, 0] [5, 10, 50] 20 = 15 / 2
  ∧ |Average.depth_weighted_average [10, 20, 0] [5, 10, 50] 30 - 83333 / 10000| ≤ 1 / 1000
  ∧ ∀ (th sp : List ℚ) (k : ℕ),
      th.length = sp.length → 1 ≤ k → k + 1 ≤ th.length →
      (∀ x ∈ th.dropLast, 0 < x) →
      Average.depth_weighted_average th sp ((th.take k).sum)
          = interfaceValueAsEndAbove th sp k
        ∧ Average.depth_weighted_average th sp ((th.take k).sum)
          = interfaceValueAsZeroBelow th sp k := by
  refine ⟨by norm_num [Average.depth_weighted_average, Average.dwaGo],
    by norm_num [Average.depth_weighted_average, Average.dwaGo, abs_le], ?_⟩
  intro th sp k hlen h1 h2 hpos
  have h := dwa_at_interface th sp k hlen h1 h2 hpos
  refine ⟨h, ?_⟩
  rw [h, interfaceValueAsZeroBelow]
  simp

/--
Witness for claim C3: the general interface property applied to the
concrete profile [10, 20, 0], [5, 10, 50] at the first interface.
-/
theorem depth_average_interface_continuity_witness :
    ([10, 20, 0] : List ℚ).length = ([5, 10, 50] : List ℚ).length
  ∧ (∀ x ∈ ([10, 20, 0] : List ℚ).dropLast, 0 < x)
  ∧ Average.depth_weighted_average [10, 20, 0] [5, 10, 50]
        ((([10, 20, 0] : List ℚ).take 1).sum)
      = interfaceValueAsEndAbove [10, 20, 0] [5, 10, 50] 1 :=
  ⟨by decide, by norm_num,
    (depth_average_interface_continuity.2.2 [10, 20, 0] [5, 10, 50] 1
      (by decide) (by decide) (by decide) (by norm_num)).1⟩

/--
Claim C4: compute_site_kappa equals the depth-weighted average of the
per-layer terms depth / (velocity times quality) at the same depth,
with the depth defaulting to the total finite thickness when absent,
and on the documented test profile it is within 1e-5 of 0.01539.
-/
theorem site_kappa_contract :
    (∀ (th vs qs : List ℚ) (d : ℚ), d ≠ 0 →
      Average.compute_site_kappa th vs qs (some d)
        = Average.depth_weighted_average th
            (List.zipWith (fun v q => d / (v * q)) vs qs) d)
  ∧ (∀ (th vs qs : List ℚ), th.getLastD 0 = 0 →
      Average.compute_site_kappa th vs qs none
        = Average.depth_weighted_average th
            (List.zipWith (fun v q => th.dropLast.sum / (v * q)) vs qs)
            th.dropLast.sum)
  ∧ |Average.compute_site_kappa [10, 50, 0] [100, 500, 1000] [10, 20, 100]
        (some 100) - 1539 / 100000| ≤ 1 / 100000 := by
  refine ⟨?_, ?_, by
    norm_num [Average.compute_site_kappa, Average.depth_weighted_average,
      Average.dwaGo, abs_le]⟩
  · intro th vs qs d hd
    simp [Average.compute_site_kappa, hd]
  · intro th vs qs hlast
    have hsum : th.sum = th.dropLast.sum := by
      rw [sum_eq_dropLast_add_getLastD th, hlast, add_zero]
    simp [Average.compute_site_kappa, hsum]

/--
Witness for claim C4: both kappa contracts applied at the documented
test profile, with the explicit depth 100 and with the defaulted depth.
-/
theorem site_kappa_contract_witness :
    ((100 : ℚ) ≠ 0)
  ∧ Average.compute_site_kappa [10, 50, 0] [100, 500, 1000] [10, 20, 100] (some 100)
      = Average.depth_weighted_average [10, 50, 0]
          (List.zipWith (fun v q => (100 : ℚ) / (v * q)) [100, 500, 1000] [10, 20, 100]) 100
  ∧ (([10, 50, 0] : List ℚ).getLastD 0 = 0)
  ∧ Average.compute_site_kappa [10, 50, 0] [100, 500, 1000] [10, 20, 100] none
      = Average.depth_weighted_average [10, 50, 0]
          (List.zipWith (fun v q => ([10, 50, 0] : List ℚ).dropLast.sum / (v * q))
            [100, 500, 1000] [10, 20, 100])
          ([10, 50, 0] : List ℚ).dropLast.sum :=
  ⟨by norm_num,
    site_kappa_contract.1 [10, 50, 0] [100, 500, 1000] [10, 20, 100] 100 (by norm_num),
    by norm_num,
    site_kappa_contract.2.1 [10, 50, 0] [100, 500, 1000] [10, 20, 100] (by norm_num)⟩

theorem getLastD_mem_of_ne_nil (l : List ℚ) (h : l ≠ []) (d : ℚ) : l.getLastD d ∈ l := by
  rw [List.getLastD_eq_getLast?, List.getLast?_eq_getLast l h]
  simp [List.getLast_mem]

/--
Claim C8, counterexample: depth_weighted_average performs no
malformed-profile validation.  With a property array shorter than the
thickness array it silently computes over the zipped common prefix and
returns 0, and with a zero thickness on a non-final layer it returns an
ordinary numeric result (10), so in neither case is the malformed
profile detected or the computation stopped.
-/
theorem depth_average_no_validation_counterexample :
    Average.depth_weighted_average [10, 20, 0] [5] 20 = 0
  ∧ Average.depth_weighted_average [0, 10, 0] [5, 10, 50] 10 = 10 := by
  constructor <;> norm_num [Average.depth_weighted_average, Average.dwaGo]

/--
Claim C8, amended: the core averaging routine performs no validation at
all.  Its result depends only on the zipped finite-layer pairs, the
finite-thickness sum and the last property value, so mismatched array
tails are silently ignored, and malformed profiles (short property
array, zero thickness on a non-final layer) produce ordinary numeric
results rather than an immediate report.
-/
theorem depth_average_silent_truncation :
    (∀ (th sp th2 sp2 : List ℚ) (d : ℚ),
      List.zip th.dropLast sp.dropLast = List.zip th2.dropLast sp2.dropLast →
      th.dropLast.sum = th2.dropLast.sum →
      sp.getLastD 0 = sp2.getLastD 0 →
      Average.depth_weighted_average th sp d = Average.depth_weighted_average th2 sp2 d)
  ∧ Average.depth_weighted_average [10, 20, 0] [5] 20 = 0
  ∧ Average.depth_weighted_average [0, 10, 0] [5, 10, 50] 10 = 10 := by
  refine ⟨?_, by norm_num [Average.depth_weighted_average, Average.dwaGo],
    by norm_num [Average.depth_weighted_average, Average.dwaGo]⟩
  intro th sp th2 sp2 d hzip hsum hlast
  simp only [Average.depth_weighted_average, hzip, hsum, hlast]

/--
Witness for claim C8 (amended): the dependence-only-on-the-zip property
applied to the mismatched profile [10, 20, 0] with property array [5],
whose zipped pairs, finite-thickness sum and last property value
coincide with those of the profile [30, 0] with the same property
array, so the two malformed calls must return the same value.
-/
theorem depth_average_silent_truncation_witness :
    List.zip ([10, 20, 0] : List ℚ).dropLast ([5] : List ℚ).dropLast
        = List.zip ([30, 0] : List ℚ).dropLast ([5] : List ℚ).dropLast
  ∧ ([10, 20, 0] : List ℚ).dropLast.sum = ([30, 0] : List ℚ).dropLast.sum
  ∧ ([5] : List ℚ).getLastD 0 = ([5] : List ℚ).getLastD 0
  ∧ Average.depth_weighted_average [10, 20, 0] [5] 20
      = Average.depth_weighted_average [30, 0] [5] 20 :=
  ⟨by simp, by norm_num, rfl,
    depth_average_silent_truncation.1 [10, 20, 0] [5] [30, 0] [5] 20
      (by simp) (by norm_num) rfl⟩

/--
Claim C10: the two copies of the depth-averaging kernel, in
openquake/srtk/soil/average.py and in oqsrtk/soilprofile/proxies.py,
agree on every input.
-/
theorem average_and_proxies_kernels_agree :
    ∀ (th sp : List ℚ) (d : ℚ),
      Average.depth_weighted_average th sp d = Proxies.depth_weighted_average th sp d := by
  intro th sp d
  simp only [Average.depth_weighted_average, Proxies.depth_weighted_average,
    dwaGo_average_eq_proxies]

/--
Claim C2, counterexample: quarter_wavelength_velocity returns only the
pair of arrays (qwl_depth, qwl_velocity) and no density component.  On
the profile [10, 0] with velocities [100, 400] at frequency 1, the
exact quarter-wavelength depth is 70 (the misfit there is 0); with a
minimizer returning that exact depth the output is ([70], [280]),
while the depth-weighted average density for densities [2000, 2500] at
depth 70 is 17000/7, which appears nowhere in the output.
-/
theorem qwl_no_density_in_output :
    Average.quarter_wavelength_velocity (fun _ _ _ => 70) [10, 0] [100, 400] [1]
        = ([70], [280])
  ∧ Average.qwl_fit_func [10, 0] [1 / 100, 1 / 400] 1 70 = 0
  ∧ Average.depth_weighted_average [10, 0] [2000, 2500] 70 = 17000 / 7
  ∧ (17000 / 7 : ℚ) ≠ 70 ∧ (17000 / 7 : ℚ) ≠ 280 := by
  refine ⟨?_, ?_, ?_, by norm_num, by norm_num⟩
  · norm_num [Average.quarter_wavelength_velocity, Average.qwl_fit_func,
      Average.listMax, Average.depth_weighted_average, Average.dwaGo]
  · norm_num [Average.qwl_fit_func, Average.depth_weighted_average, Average.dwaGo]
  · norm_num [Average.depth_weighted_average, Average.dwaGo]

/--
Claim C2, amended: for every profile and frequency axis (and any
bounded minimizer standing for scipy fminbound),
quarter_wavelength_velocity outputs one pair per frequency: the
quarter-wavelength depth chosen by the bounded search, and the
harmonic-average (slowness-based) velocity evaluated at exactly that
depth.  No density average is computed or returned.
-/
theorem qwl_outputs_depth_velocity_pairs :
    ∀ (fmin : (ℚ → ℚ) → ℚ → ℚ → ℚ) (th vs fr : List ℚ),
      (Average.quarter_wavelength_velocity fmin th vs fr).1
          = fr.map (fun f =>
              fmin (Average.qwl_fit_func th (vs.map (fun v => 1 / v)) f) 0
                (Average.listMax ((vs.map (fun v => 1 / v)).map (fun s => 1 / (4 * f * s)))))
    ∧ (Average.quarter_wavelength_velocity fmin th vs fr).2
          = ((Average.quarter_wavelength_velocity fmin th vs fr).1).map
              (fun z => 1 / Average.depth_weighted_average th (vs.map (fun v => 1 / v)) z) := by
  intro fmin th vs fr
  constructor
  · simp only [Average.quarter_wavelength_velocity, List.map_map]
    rfl
  · simp only [Average.quarter_wavelength_velocity, List.map_map]
    rfl

/--
Claim C5: with no impedance contrast (identical site and reference
velocity and density, vertical incidence) the amplification is exactly
one, for every positive velocity and density and any model of numpy
sqrt fixing 1.
-/
theorem impedance_no_contrast_unity (ops : ROps) (v dn : ℚ) (hv : 0 < v) (hd : 0 < dn)
    (hs : ops.sqrtF 1 = 1) :
    impedance_amplification ops [v] [dn] (some v) (some dn) 0 = [1] := by
  have hv0 : v ≠ 0 := ne_of_gt hv
  have hd0 : dn ≠ 0 := ne_of_gt hd
  have hdv : dn * v ≠ 0 := mul_ne_zero hd0 hv0
  simp [impedance_amplification, npSum0, hv0, hd0, div_self hdv, hs]

/--
Witness for claim C5: the unit-amplification property at velocity 2,
density 3, with the identity standing for numpy sqrt.
-/
theorem impedance_no_contrast_unity_witness :
    (0 : ℚ) < 2 ∧ (0 : ℚ) < 3 ∧ ops0.sqrtF 1 = 1
  ∧ impedance_amplification ops0 [2] [3] (some 2) (some 3) 0 = [1] :=
  ⟨by norm_num, by norm_num, rfl,
    impedance_no_contrast_unity ops0 2 3 (by norm_num) (by norm_num) rfl⟩

/--
Claim C6, counterexample: the default reference is selected by the
truthiness test (if not np.sum(ref_vs)), so a supplied zero-valued
reference velocity is treated exactly like an absent one: with top
arrays [1, 4] and [1, 1], reference velocity 0 (supplied) and
reference density 1, the result equals the call with no reference
velocity at all and uses top_vs[-1] = 4 as reference (giving [4, 1]
under the identity sqrt), instead of the [0, 0] that honouring the
supplied zero reference would produce.
-/
theorem impedance_zero_reference_takes_default :
    impedance_amplification ops0 [1, 4] [1, 1] (some 0) (some 1) 0
        = impedance_amplification ops0 [1, 4] [1, 1] none (some 1) 0
  ∧ impedance_amplification ops0 [1, 4] [1, 1] (some 0) (some 1) 0 = [4, 1]
  ∧ ([4, 1] : List ℚ) ≠ ([0, 0] : List ℚ) := by
  refine ⟨?_, ?_, by norm_num⟩ <;>
    norm_num [impedance_amplification, ops0, npSum0, refDefault]

/--
Claim C6, amended: with more than one strictly positive element in the
top arrays and vertical incidence, any reference argument whose numpy
sum is zero (which covers both an actually absent reference and a
supplied zero-valued one, by the truthiness test in the source) makes
the call use the last element of the corresponding top array as
reference, so the result is sqrt((top_dn[-1] * top_vs[-1]) /
(top_dn * top_vs)) elementwise and its last element is 1.
-/
theorem impedance_default_reference_formula (ops : ROps) (tvs tdn : List ℚ)
    (rv rd : Option ℚ)
    (hlen : tvs.length = tdn.length) (hgt : 1 < tvs.length)
    (hpv : ∀ x ∈ tvs, 0 < x) (hpd : ∀ x ∈ tdn, 0 < x)
    (hs : ops.sqrtF 1 = 1)
    (hrv : npSum0 rv = 0) (hrd : npSum0 rd = 0) :
    impedance_amplification ops tvs tdn rv rd 0
        = List.zipWith (fun v d =>
            ops.sqrtF ((tdn.getLastD 0 * tvs.getLastD 0) / (d * v))) tvs tdn
  ∧ (impedance_amplification ops tvs tdn rv rd 0).getLastD 0 = 1 := by
  have hgtd : 1 < tdn.length := hlen ▸ hgt
  have h1 : impedance_amplification ops tvs tdn rv rd 0
      = List.zipWith (fun v d =>
          ops.sqrtF ((tdn.getLastD 0 * tvs.getLastD 0) / (d * v))) tvs tdn := by
    simp [impedance_amplification, hrv, hrd, refDefault, hgt, hgtd]
  refine ⟨h1, ?_⟩
  have hne : tvs ≠ [] := by
    intro h
    rw [h] at hgt
    simp at hgt
  have hned : tdn ≠ [] := by
    intro h
    rw [h] at hgtd
    simp at hgtd
  rw [h1, getLastD_zipWith _ tvs tdn 0 0 0 hlen hne]
  have hvl : 0 < tvs.getLastD 0 := hpv _ (getLastD_mem_of_ne_nil tvs hne 0)
  have hdl : 0 < tdn.getLastD 0 := hpd _ (getLastD_mem_of_ne_nil tdn hned 0)
  have hprod : tdn.getLastD 0 * tvs.getLastD 0 ≠ 0 :=
    mul_ne_zero (ne_of_gt hdl) (ne_of_gt hvl)
  rw [div_self hprod, hs]

/--
Witness for claim C6 (amended): the default-reference formula applied
to top arrays [1, 4] and [1, 1] with both references absent, under the
identity model of numpy sqrt.
-/
theorem impedance_default_reference_formula_witness :
    (([1, 4] : List ℚ).length = ([1, 1] : List ℚ).length)
  ∧ 1 < ([1, 4] : List ℚ).length
  ∧ ops0.sqrtF 1 = 1 ∧ npSum0 none = 0
  ∧ (impedance_amplification ops0 [1, 4] [1, 1] none none 0).getLastD 0 = 1 :=
  ⟨by decide, by decide, rfl, rfl,
    (impedance_default_reference_formula ops0 [1, 4] [1, 1] none none
      (by decide) (by decide) (by norm_num) (by norm_num) rfl rfl rfl).2⟩

/- Unfolding lemmas turning every CQ operation into mk-component form. -/

@[simp]
theorem CQ.ofNat_def (n : ℕ) : (OfNat.ofNat n : CQ) = ⟨OfNat.ofNat n, 0⟩ := rfl

@[simp]
theorem CQ.ofQ_def (q : ℚ) : CQ.ofQ q = ⟨q, 0⟩ := rfl

@[simp]
theorem CQ.I_def : CQ.I = ⟨0, 1⟩ := rfl

@[simp]
theorem CQ.add_def (a b c d : ℚ) : (⟨a, b⟩ : CQ) + ⟨c, d⟩ = ⟨a + c, b + d⟩ := rfl

@[simp]
theorem CQ.sub_def (a b c d : ℚ) : (⟨a, b⟩ : CQ) - ⟨c, d⟩ = ⟨a - c, b - d⟩ := rfl

@[simp]
theorem CQ.neg_def (a b : ℚ) : -(⟨a, b⟩ : CQ) = ⟨-a, -b⟩ := rfl

@[simp]
theorem CQ.mul_def (a b c d : ℚ) :
    (⟨a, b⟩ : CQ) * ⟨c, d⟩ = ⟨a * c - b * d, a * d + b * c⟩ := rfl

@[simp]
theorem CQ.inv_def (a b : ℚ) :
    (⟨a, b⟩ : CQ)⁻¹ = ⟨a / (a * a + b * b), -b / (a * a + b * b)⟩ := rfl

@[simp]
theorem CQ.div_def (x y : CQ) : x / y = x * y⁻¹ := rfl

theorem CQ.mul_zero (z : CQ) : z * ⟨0, 0⟩ = ⟨0, 0⟩ := by
  cases z
  simp

theorem CQ.mul_one (z : CQ) : z * ⟨1, 0⟩ = z := by
  cases z
  simp

theorem CQ.one_mul (z : CQ) : (⟨1, 0⟩ : CQ) * z = z := by
  cases z
  simp

theorem shLoop_eq_map (ops : COps) (hlC mu ns bounds depths : List CQ)
    (fs : List ℚ) :
    ∀ (st : Option (List CQ)),
      Amplification.shLoop ops hlC mu ns bounds depths fs st
        = fs.map (Amplification.shColumn ops hlC mu ns bounds depths) := by
  induction fs with
  | nil => intro st; rfl
  | cons f rest ih =>
      intro st
      simp only [Amplification.shLoop, Amplification.shColumn, List.map_cons, ih]

/--
Claim C1: if the per-frequency Knopoff layer matrix is singular at some
frequency of the axis, the whole call still succeeds; the column of the
singular frequency is undefined (NaN, modelled by none) at every
depth, and every other column equals exactly the column the solver
computes when the singular frequency is removed from the axis — a
singular system at one frequency never aborts or alters the
computation for other frequencies.
-/
theorem sh_singular_frequency_isolation (ops : COps)
    (hl vs dn : List ℚ) (qs : Option (List ℚ)) (inc_ang : ℚ) (dep : DepthSpec)
    (fr1 fr2 : List ℚ) (fj : ℚ)
    (hlC mu ns bounds : List CQ)
    (hprep : Amplification.shPrep ops hl vs dn qs inc_ang = some (hlC, mu, ns, bounds))
    (hsing : gaussSolve
        (Amplification.layMat ops (2 * ops.piQ * fj) hlC mu ns)
        (Amplification.inpVec (2 * hlC.length)) = none) :
    Amplification.sh_transfer_function ops (fr1 ++ fj :: fr2) hl vs dn qs inc_ang dep
        = some ((fr1.map (Amplification.shColumn ops hlC mu ns bounds
              (Amplification.shDepths bounds dep)))
            ++ ((Amplification.shDepths bounds dep).map (fun _ => none))
              :: (fr2.map (Amplification.shColumn ops hlC mu ns bounds
                (Amplification.shDepths bounds dep))))
  ∧ Amplification.sh_transfer_function ops (fr1 ++ fr2) hl vs dn qs inc_ang dep
        = some ((fr1.map (Amplification.shColumn ops hlC mu ns bounds
              (Amplification.shDepths bounds dep)))
            ++ (fr2.map (Amplification.shColumn ops hlC mu ns bounds
              (Amplification.shDepths bounds dep)))) := by
  have hcol : Amplification.shColumn ops hlC mu ns bounds
      (Amplification.shDepths bounds dep) fj
      = (Amplification.shDepths bounds dep).map (fun _ => none) := by
    simp only [Amplification.shColumn, hsing]
  constructor <;>
  · simp only [Amplification.sh_transfer_function, hprep, shLoop_eq_map,
      List.map_append, List.map_cons, hcol]

/--
Witness for claim C1: a two-layer profile whose transfer-function
matrix is singular at every frequency of the axis [1, 2, 3] (the
external complex cosine is modelled as identically zero, which makes
the stress-continuity rows vanish); the full call still returns a
matrix, the column of frequency 2 is undefined at every depth, and the
flanking columns are those of the shortened axes.
-/
theorem sh_singular_frequency_isolation_witness :
    Amplification.shPrep cops0 [5, 0] [1, 1] [1, 1] none 0
        = some (hlC0, mu0, ns0, bounds0)
  ∧ gaussSolve (Amplification.layMat cops0 (2 * cops0.piQ * 2) hlC0 mu0 ns0)
      (Amplification.inpVec (2 * hlC0.length)) = none
  ∧ Amplification.sh_transfer_function cops0 ([1] ++ 2 :: [3]) [5, 0] [1, 1] [1, 1]
        none 0 (DepthSpec.scalar 0)
      = some ((([1] : List ℚ).map (Amplification.shColumn cops0 hlC0 mu0 ns0 bounds0
            (Amplification.shDepths bounds0 (DepthSpec.scalar 0))))
          ++ ((Amplification.shDepths bounds0 (DepthSpec.scalar 0)).map (fun _ => none))
            :: (([3] : List ℚ).map (Amplification.shColumn cops0 hlC0 mu0 ns0 bounds0
              (Amplification.shDepths bounds0 (DepthSpec.scalar 0))))) := by
  have hr2 : List.range 2 = [0, 1] := by decide
  have hr4 : List.range 4 = [0, 1, 2, 3] := by decide
  have hprep : Amplification.shPrep cops0 [5, 0] [1, 1] [1, 1] none 0
      = some (hlC0, mu0, ns0, bounds0) := by
    simp [Amplification.shPrep, Amplification.dampedVs,
      Amplification.propagationSines, Amplification.iMat, Amplification.iVec,
      Amplification.interface_depth, gaussSolve, gaussAux, pivotSplit, dotCQ,
      cops0, hr2, hlC0, mu0, ns0, bounds0]
  have hsing : gaussSolve (Amplification.layMat cops0 (2 * cops0.piQ * 2) hlC0 mu0 ns0)
      (Amplification.inpVec (2 * hlC0.length)) = none := by
    simp [Amplification.layMat, Amplification.inpVec, gaussSolve, gaussAux,
      pivotSplit, dotCQ, cops0, hr4, hlC0, mu0, ns0]
  exact ⟨hprep, hsing,
    (sh_singular_frequency_isolation cops0 [5, 0] [1, 1] [1, 1] none 0
      (DepthSpec.scalar 0) [1] [3] 2 hlC0 mu0 ns0 bounds0 hprep hsing).1⟩

/--
Claim C7: on a single elastic half-space (one layer, no quality
factors), vertical incidence, surface depth 0, the displacement
magnitude returned by sh_transfer_function is exactly 2 at every
frequency (free-surface doubling of the unit incident amplitude), so
in particular at low frequency and within any numerical tolerance.
The hypotheses fix the external complex library functions at the only
points where they are evaluated (sin, arcsin, cos and exp at 0, the
magnitude at 2), with the values numpy produces there, and require the
half-space velocity and density to be positive as the profile
invariant demands.
-/
theorem sh_halfspace_free_surface_doubling (ops : COps) (f vs dn : ℚ)
    (hv : 0 < vs) (hd : 0 < dn)
    (hsin : ops.sinC ⟨0, 0⟩ = ⟨0, 0⟩)
    (harcsin : ops.arcsinC ⟨0, 0⟩ = ⟨0, 0⟩)
    (hcos : ops.cosC ⟨0, 0⟩ = ⟨1, 0⟩)
    (hexp : ops.expC ⟨0, 0⟩ = ⟨1, 0⟩)
    (habs : ops.absC ⟨2, 0⟩ = 2) :
    Amplification.sh_transfer_function ops [f] [0] [vs] [dn] none 0 (DepthSpec.scalar 0)
      = some [[some 2]] := by
  have hr1 : List.range 1 = [0] := by decide
  have hr2 : List.range 2 = [0, 1] := by decide
  have h2 : (1 + 1 : ℚ) = 2 := by norm_num
  simp [Amplification.sh_transfer_function, Amplification.shPrep,
    Amplification.dampedVs, Amplification.propagationSines, Amplification.iMat,
    Amplification.iVec, Amplification.interface_depth, Amplification.shDepths,
    Amplification.shLoop, Amplification.layMat, Amplification.inpVec,
    Amplification.dispAt, Amplification.locateLayer, CQ.cle, gaussSolve,
    gaussAux, pivotSplit, dotCQ, hr1, hr2, hsin, harcsin, hcos, hexp, habs,
    CQ.mul_zero, h2]

/--
Witness for claim C7: the free-surface doubling applied at frequency 1
to the half-space with unit velocity and density, with the external
functions instantiated by constants taking the required values.
-/
theorem sh_halfspace_free_surface_doubling_witness :
    (0 : ℚ) < 1 ∧ cops1.sinC ⟨0, 0⟩ = ⟨0, 0⟩ ∧ cops1.arcsinC ⟨0, 0⟩ = ⟨0, 0⟩
  ∧ cops1.cosC ⟨0, 0⟩ = ⟨1, 0⟩ ∧ cops1.expC ⟨0, 0⟩ = ⟨1, 0⟩
  ∧ cops1.absC ⟨2, 0⟩ = 2
  ∧ Amplification.sh_transfer_function cops1 [1] [0] [1] [1] none 0
      (DepthSpec.scalar 0) = some [[some 2]] :=
  ⟨by norm_num, by simp [cops1], by simp [cops1], by simp [cops1], by simp [cops1],
    rfl,
    sh_halfspace_free_surface_doubling cops1 1 1 1 (by norm_num) (by norm_num)
      (by simp [cops1]) (by simp [cops1]) (by simp [cops1]) (by simp [cops1]) rfl⟩

/- Frame lemmas for the heap model. -/

theorem Mem.preserves_refl (s : Mem) : s.Preserves s :=
  ⟨le_refl _, fun _ _ => rfl⟩

theorem Mem.preserves_trans {s0 s1 s2 : Mem}
    (h1 : s0.Preserves s1) (h2 : s1.Preserves s2) : s0.Preserves s2 :=
  ⟨le_trans h1.1 h2.1, fun a ha => (h2.2 a (lt_of_lt_of_le ha h1.1)).trans (h1.2 a ha)⟩

theorem Mem.alloc_length (s : Mem) (c : List Val) :
    (s.alloc c).1.cells.length = s.cells.length + 1 := by
  simp [Mem.alloc]

theorem Mem.write_length (s : Mem) (a : ℕ) (c : List Val) :
    (s.write a c).cells.length = s.cells.length := by
  simp [Mem.write]

theorem Mem.alloc_addr (s : Mem) (c : List Val) : (s.alloc c).2 = s.cells.length := rfl

theorem getD_set_ne {α : Type} (l : List α) (i j : ℕ) (c d : α) (hij : i ≠ j) :
    (l.set i c).getD j d = l.getD j d := by
  simp [List.getD_eq_getElem?_getD, List.getElem?_set_ne hij]

theorem Mem.alloc_preserves {s0 s : Mem} (c : List Val) (h : s0.Preserves s) :
    s0.Preserves (s.alloc c).1 := by
  refine Mem.preserves_trans h ⟨by simp [Mem.alloc], ?_⟩
  intro a ha
  simp only [Mem.alloc, Mem.read]
  rw [List.getD_eq_getElem?_getD, List.getD_eq_getElem?_getD,
    List.getElem?_append_left ha]

theorem Mem.write_preserves {s0 s : Mem} {a : ℕ} (c : List Val)
    (h : s0.Preserves s) (ha : s0.cells.length ≤ a) :
    s0.Preserves (s.write a c) := by
  refine ⟨?_, ?_⟩
  · rw [Mem.write_length]
    exact h.1
  · intro b hb
    have hba : a ≠ b := by omega
    have hr : (s.write a c).read b = s.read b := by
      simp only [Mem.write, Mem.read]
      exact getD_set_ne _ _ _ _ _ hba
    rw [hr]
    exact h.2 b hb

theorem Mem.alloc_preserves2 {s0 s : Mem} {c : List Val} (h : s0.Preserves s) :
    s0.Preserves (s.alloc c).1 := Mem.alloc_preserves c h

theorem Mem.write_preserves2 {s0 s : Mem} {a : ℕ} {c : List Val}
    (h : s0.Preserves s) (ha : s0.cells.length ≤ a) :
    s0.Preserves (s.write a c) := Mem.write_preserves c h ha

theorem foldlRec {α β : Type} (P : β → Prop) (f : β → α → β) :
    ∀ (l : List α) (init : β), P init → (∀ b a, P b → P (f b a)) → P (l.foldl f init)
  | [], _, h, _ => h
  | x :: xs, init, h, hstep => foldlRec P f xs (f init x) (hstep init x h) hstep

/--
Claim C9: none of the six core operations writes into any array that
existed before the call.  The four purely reading routines return the
heap unchanged; the quarter-wavelength solver and the transfer-function
solver, which do perform array writes (the result arrays, the layer
matrix, the amplitude vector and the displacement matrix), write only
into cells they allocated themselves, so every pre-existing cell, and
in particular every caller-owned input array, holds the same values
after the call as before it.
-/
theorem core_operations_do_not_mutate_inputs :
    (∀ (s : Mem) (aTh aSp : ℕ) (d : ℚ),
      (Store.depth_weighted_average_st s aTh aSp d).1 = s)
  ∧ (∀ (s : Mem) (aTh aVs : ℕ) (d : ℚ),
      (Store.traveltime_average_velocity_st s aTh aVs d).1 = s)
  ∧ (∀ (s : Mem) (aTh aVs aQs : ℕ) (d : Option ℚ),
      (Store.compute_site_kappa_st s aTh aVs aQs d).1 = s)
  ∧ (∀ (ops : ROps) (s : Mem) (aTvs aTdn : ℕ) (rv rd : Option ℚ) (ia : ℚ),
      (Store.impedance_amplification_st ops s aTvs aTdn rv rd ia).1 = s)
  ∧ (∀ (fmin : (ℚ → ℚ) → ℚ → ℚ → ℚ) (s : Mem) (aTh aVs aFr : ℕ),
      s.Preserves (Store.quarter_wavelength_velocity_st fmin s aTh aVs aFr).1)
  ∧ (∀ (ops : COps) (s : Mem) (aF aH aV aD aQ : ℕ) (hq : Bool) (ia : ℚ)
      (dep : DepthSpec),
      s.Preserves (Store.sh_transfer_function_st ops s aF aH aV aD aQ hq ia dep).1) := by
  refine ⟨fun _ _ _ _ => rfl, fun _ _ _ _ => rfl, fun _ _ _ _ _ => rfl,
    fun _ _ _ _ _ _ _ => rfl, ?_, ?_⟩
  · intro fmin s aTh aVs aFr
    simp only [Store.quarter_wavelength_velocity_st]
    apply foldlRec (fun m => s.Preserves m)
    · exact Mem.alloc_preserves2 (Mem.alloc_preserves2 (Mem.preserves_refl s))
    · intro m nf hm
      apply Mem.write_preserves2 (Mem.write_preserves2 hm ?_) ?_
      · rw [Mem.alloc_addr]
      · rw [Mem.alloc_addr, Mem.alloc_length]
        omega
  · intro ops s aF aH aV aD aQ hq ia dep
    cases hq <;>
    · simp only [Store.sh_transfer_function_st, if_true, if_false, Bool.false_eq_true]
      split
      case _ =>
        dsimp only
        repeat
          first
          | exact Mem.preserves_refl s
          | apply Mem.alloc_preserves2
          | apply Mem.write_preserves2
        all_goals
          simp only [Mem.alloc_addr, Mem.alloc_length, Mem.write_length]
          omega
      case _ =>
        dsimp only
        refine (foldlRec (fun (st : Mem × ℕ) =>
          s.Preserves st.1 ∧ s.cells.length ≤ st.2) _ _ _ ⟨?_, ?_⟩ ?_).1
        · repeat
            first
            | exact Mem.preserves_refl s
            | apply Mem.alloc_preserves2
            | apply Mem.write_preserves2
          all_goals
            simp only [Mem.alloc_addr, Mem.alloc_length, Mem.write_length]
            omega
        · simp only [Mem.alloc_addr, Mem.alloc_length, Mem.write_length]
          omega
        · intro st nf hst
          dsimp only
          split
          case _ =>
            refine ⟨foldlRec (fun (m : Mem) => s.Preserves m) _ _ _ ?_ ?_, ?_⟩
            · exact Mem.alloc_preserves2 (Mem.write_preserves2 hst.1 (by
                simp only [Mem.alloc_addr, Mem.alloc_length, Mem.write_length]
                omega))
            · intro m nz hm
              apply Mem.write_preserves2 hm
              simp only [Mem.alloc_addr, Mem.alloc_length, Mem.write_length]
              omega
            · rw [Mem.alloc_addr, Mem.write_length]
              exact hst.1.1
          case _ =>
            refine ⟨foldlRec (fun (m : Mem) => s.Preserves m) _ _ _ ?_ ?_, hst.2⟩
            · exact Mem.write_preserves2 (Mem.write_preserves2 hst.1 (by
                simp only [Mem.alloc_addr, Mem.alloc_length, Mem.write_length]
                omega)) hst.2
            · intro m nz hm
              apply Mem.write_preserves2 hm
              simp only [Mem.alloc_addr, Mem.alloc_length, Mem.write_length]
              omega
